import Mathlib

/-!
# Verification of the chessbot search core (`chess_bot.py`)

This file gives a shallow embedding of the search subsystem of the
repository's single source file `chess_bot.py` and settles the frozen
claims about it.

Modelling conventions:

* Python numbers used as search scores are floats that can hold
  `float("inf")` / `float("-inf")`; we model them with `XInt`, integers
  extended with two infinities.  The static evaluation is integer-valued.
* The rules engine (the external `python-chess` library) is abstracted as
  an `Engine` structure of the operations the bot calls (`legal_moves`,
  `push`/`pop`, `is_capture`, `piece_at`, fen key, ...).  The bot's own
  board-independent logic is translated from the source.
* The bot object's mutable fields (`self.board` with its move stack, the
  transposition table, killer moves, history table) become an explicit
  state record `St` threaded through the search functions.  `time.time()`
  is modelled by an oracle `tick : Nat → Int` read at an index stored in
  the state, one index per call.  A ghost `log` field records every board
  push (it influences nothing; it only lets theorems speak about which
  moves were expanded).
* `quiescence` has no depth parameter in the source; the embedding gives
  it explicit fuel and returns `none` when the fuel runs out, so that
  termination can be stated as: enough fuel always yields `some`.
-/

/-- Integers extended with `-inf` and `+inf`, modelling Python floats as
used for search scores (`float("-inf")` initial best, infinite windows). -/
inductive XInt where
  | negInf : XInt
  | fin : Int → XInt
  | posInf : XInt
deriving DecidableEq, Repr

/-- Negation, as Python unary minus on these values. -/
def XInt.neg : XInt → XInt
  | .negInf => .posInf
  | .fin n => .fin (-n)
  | .posInf => .negInf

/-- Boolean `≤` on extended integers (Python `<=` / `>=` comparisons). -/
def XInt.ble : XInt → XInt → Bool
  | .negInf, _ => true
  | .fin _, .negInf => false
  | .fin a, .fin b => decide (a ≤ b)
  | .fin _, .posInf => true
  | .posInf, .posInf => true
  | .posInf, _ => false

/-- Boolean `<` on extended integers (Python `<` / `>` comparisons). -/
def XInt.blt (a b : XInt) : Bool := !(XInt.ble b a)

theorem XInt.ble_refl (a : XInt) : XInt.ble a a = true := by
  cases a <;> simp [XInt.ble]

theorem XInt.ble_trans {a b c : XInt} (h1 : XInt.ble a b = true)
    (h2 : XInt.ble b c = true) : XInt.ble a c = true := by
  cases a <;> cases b <;> cases c <;> simp_all [XInt.ble]
  all_goals omega

theorem XInt.ble_of_blt {a b : XInt} (h : XInt.blt a b = true) :
    XInt.ble a b = true := by
  cases a <;> cases b <;> simp_all [XInt.ble, XInt.blt]
  all_goals omega

/-- Bound kind of a transposition-table entry (`'EXACT'`, `'LOWER'`,
`'UPPER'` strings in the source). -/
inductive TTFlag where
  | EXACT : TTFlag
  | LOWER : TTFlag
  | UPPER : TTFlag
deriving DecidableEq, Repr

/-- One stored entry: the tuple `(depth, eval_score, flag, best_move)`. -/
structure TTEntry (M : Type) where
  depth : Nat
  score : XInt
  flag : TTFlag
  move : Option M
deriving DecidableEq, Repr

/-- Lookup in a Python dict modelled as an association list. -/
def dictGet {K V : Type} [DecidableEq K] : List (K × V) → K → Option V
  | [], _ => none
  | (k0, v) :: rest, k => if k = k0 then some v else dictGet rest k

/-- `d[key] = v` on a Python dict modelled as an association list:
replace in place if present, else append. -/
def dictSet {K V : Type} [DecidableEq K] : List (K × V) → K → V → List (K × V)
  | [], k, v => [(k, v)]
  | (k0, v0) :: rest, k, v =>
      if k = k0 then (k, v) :: rest else (k0, v0) :: dictSet rest k v

theorem dictGet_dictSet_self {K V : Type} [DecidableEq K]
    (l : List (K × V)) (k : K) (v : V) : dictGet (dictSet l k v) k = some v := by
  induction l with
  | nil => simp [dictGet, dictSet]
  | cons hd tl ih =>
      obtain ⟨k0, v0⟩ := hd
      by_cases h : k = k0 <;> simp [dictGet, dictSet, h, ih]

theorem dictGet_dictSet_ne {K V : Type} [DecidableEq K]
    (l : List (K × V)) (k k2 : K) (v : V) (h : k2 ≠ k) :
    dictGet (dictSet l k v) k2 = dictGet l k2 := by
  induction l with
  | nil => simp [dictGet, dictSet, h]
  | cons hd tl ih =>
      obtain ⟨k0, v0⟩ := hd
      by_cases h0 : k = k0
      · subst h0; simp [dictGet, dictSet, h]
      · by_cases h2 : k2 = k0 <;> simp [dictGet, dictSet, h0, h2, ih]

/-- The bot's `TranspositionTable`: a dict plus the configured capacity. -/
structure TranspositionTable (K M : Type) where
  table : List (K × TTEntry M)
  size : Nat

namespace TranspositionTable

/-- `store(key, depth, eval_score, flag, best_move)`: full clear when the
entry count exceeds capacity, then unconditional overwrite. -/
def store {K M : Type} [DecidableEq K] (t : TranspositionTable K M) (key : K)
    (depth : Nat) (evalScore : XInt) (flag : TTFlag) (bestMove : Option M) :
    TranspositionTable K M :=
  let table0 := if t.table.length > t.size then [] else t.table
  { t with table := dictSet table0 key ⟨depth, evalScore, flag, bestMove⟩ }

/-- `lookup(key, depth, alpha, beta)`: returns `(best_move, eval, flag)`
when the stored entry is usable for the given depth and window. -/
def lookup {K M : Type} [DecidableEq K] (t : TranspositionTable K M) (key : K)
    (depth : Nat) (alpha beta : XInt) : Option (Option M × XInt × TTFlag) :=
  match dictGet t.table key with
  | some e =>
      if e.depth ≥ depth then
        if e.flag = TTFlag.EXACT then some (e.move, e.score, e.flag)
        else if e.flag = TTFlag.LOWER ∧ XInt.ble beta e.score = true then
          some (e.move, e.score, e.flag)
        else if e.flag = TTFlag.UPPER ∧ XInt.ble e.score alpha = true then
          some (e.move, e.score, e.flag)
        else none
      else none
  | none => none

end TranspositionTable

/-- C4: `TranspositionTable.lookup` returns nothing when no entry exists
for the key or the stored depth is strictly below the requested depth;
when the stored depth suffices it returns the stored entry exactly when
the bound is EXACT, or LOWER with stored score ≥ beta, or UPPER with
stored score ≤ alpha. -/
theorem C4_lookup_characterization {K M : Type} [DecidableEq K]
    (t : TranspositionTable K M) (key : K) (depth : Nat) (alpha beta : XInt) :
    (dictGet t.table key = none → t.lookup key depth alpha beta = none) ∧
    (∀ e : TTEntry M, dictGet t.table key = some e → e.depth < depth →
      t.lookup key depth alpha beta = none) ∧
    (∀ e : TTEntry M, dictGet t.table key = some e → depth ≤ e.depth →
      t.lookup key depth alpha beta =
        (if e.flag = TTFlag.EXACT ∨ (e.flag = TTFlag.LOWER ∧ XInt.ble beta e.score = true)
            ∨ (e.flag = TTFlag.UPPER ∧ XInt.ble e.score alpha = true)
         then some (e.move, e.score, e.flag) else none)) := by
  refine ⟨?_, ?_, ?_⟩
  · intro h; simp [TranspositionTable.lookup, h]
  · intro e he hdep
    simp [TranspositionTable.lookup, he, Nat.not_le.mpr hdep, show ¬ e.depth ≥ depth from Nat.not_le.mpr hdep]
  · intro e he hdep
    simp only [TranspositionTable.lookup, he]
    rw [if_pos hdep]
    by_cases hE : e.flag = TTFlag.EXACT
    · simp [hE]
    · by_cases hL : e.flag = TTFlag.LOWER ∧ XInt.ble beta e.score = true
      · simp [hE, hL]
      · by_cases hU : e.flag = TTFlag.UPPER ∧ XInt.ble e.score alpha = true
        · simp [hE, hL, hU]
        · simp [hE, hL, hU]

/-- Witness for C4 on a concrete one-entry table. -/
theorem C4_lookup_characterization_witness :
    let e : TTEntry Nat := ⟨3, XInt.fin 7, TTFlag.LOWER, some 5⟩
    let t : TranspositionTable Nat Nat := ⟨[(1, e)], 10⟩
    t.lookup 1 5 (XInt.fin 0) (XInt.fin 4) = none ∧
    t.lookup 1 2 (XInt.fin 0) (XInt.fin 4) = some (some 5, XInt.fin 7, TTFlag.LOWER) ∧
    dictGet t.table 2 = none ∧ t.lookup 2 1 (XInt.fin 0) (XInt.fin 4) = none := by
  intro e t
  refine ⟨?_, ?_, by decide, ?_⟩
  · exact (C4_lookup_characterization t 1 5 (XInt.fin 0) (XInt.fin 4)).2.1 e (by decide) (by decide)
  · have h := (C4_lookup_characterization t 1 2 (XInt.fin 0) (XInt.fin 4)).2.2 e (by decide) (by decide)
    rw [h]; decide
  · exact (C4_lookup_characterization t 2 1 (XInt.fin 0) (XInt.fin 4)).1 (by decide)

/-- C7: `TranspositionTable.store` fully clears the table when the entry
count exceeds the configured capacity before the insert (leaving exactly
the new entry), and in all cases unconditionally overwrites any existing
entry for the key while, absent a clear, leaving other keys untouched. -/
theorem C7_store_characterization {K M : Type} [DecidableEq K]
    (t : TranspositionTable K M) (key : K) (depth : Nat) (score : XInt)
    (flag : TTFlag) (move : Option M) :
    (t.table.length > t.size →
      (t.store key depth score flag move).table = [(key, ⟨depth, score, flag, move⟩)]) ∧
    (dictGet (t.store key depth score flag move).table key =
      some ⟨depth, score, flag, move⟩) ∧
    (¬ t.table.length > t.size →
      ∀ k2, k2 ≠ key →
        dictGet (t.store key depth score flag move).table k2 = dictGet t.table k2) ∧
    ((t.store key depth score flag move).size = t.size) := by
  refine ⟨?_, ?_, ?_, rfl⟩
  · intro h; simp [TranspositionTable.store, h, dictSet]
  · by_cases h : t.table.length > t.size
    · simp [TranspositionTable.store, h, dictGet_dictSet_self]
    · simp [TranspositionTable.store, h, dictGet_dictSet_self]
  · intro h k2 hk
    simp [TranspositionTable.store, h, dictGet_dictSet_ne _ _ _ _ hk]

/-- Witness for C7 on concrete tables: an over-capacity table is fully
reset to the single new entry; an in-capacity store overwrites the key and
keeps the other key. -/
theorem C7_store_characterization_witness :
    let e0 : TTEntry Nat := ⟨1, XInt.fin 0, TTFlag.EXACT, none⟩
    let tBig : TranspositionTable Nat Nat := ⟨[(1, e0), (2, e0)], 1⟩
    let tSmall : TranspositionTable Nat Nat := ⟨[(1, e0), (2, e0)], 5⟩
    (tBig.store 3 4 (XInt.fin 9) TTFlag.LOWER (some 8)).table
        = [(3, ⟨4, XInt.fin 9, TTFlag.LOWER, some 8⟩)] ∧
    dictGet (tSmall.store 1 4 (XInt.fin 9) TTFlag.LOWER (some 8)).table 1
        = some ⟨4, XInt.fin 9, TTFlag.LOWER, some 8⟩ ∧
    dictGet (tSmall.store 1 4 (XInt.fin 9) TTFlag.LOWER (some 8)).table 2 = some e0 := by
  intro e0 tBig tSmall
  refine ⟨?_, ?_, ?_⟩
  · exact (C7_store_characterization tBig 3 4 (XInt.fin 9) TTFlag.LOWER (some 8)).1 (by decide)
  · exact (C7_store_characterization tSmall 1 4 (XInt.fin 9) TTFlag.LOWER (some 8)).2.1
  · have h := (C7_store_characterization tSmall 1 4 (XInt.fin 9) TTFlag.LOWER (some 8)).2.2.1
      (by decide) 2 (by decide)
    rw [h]; decide

/-- Insert one element into a list already sorted in descending key order,
placing it before the first element whose key is not larger: this is the
step of a stable descending sort. -/
def sortInsert {A : Type} (key : A → Int) (x : A) : List A → List A
  | [] => [x]
  | y :: ys => if key x < key y then y :: sortInsert key x ys else x :: y :: ys

/-- Stable descending sort by an integer key, modelling Python's stable
`list.sort(key=..., reverse=True)` and `sorted(..., key=lambda m: -score)`. -/
def pySortDesc {A : Type} (key : A → Int) : List A → List A
  | [] => []
  | x :: xs => sortInsert key x (pySortDesc key xs)

theorem sortInsert_perm {A : Type} (key : A → Int) (x : A) (l : List A) :
    (sortInsert key x l).Perm (x :: l) := by
  induction l with
  | nil => simp [sortInsert]
  | cons y ys ih =>
      by_cases h : key x < key y
      · simp only [sortInsert, if_pos h]
        exact (List.Perm.cons y ih).trans (List.Perm.swap x y ys)
      · simp [sortInsert, if_neg h]

theorem pySortDesc_perm {A : Type} (key : A → Int) (l : List A) :
    (pySortDesc key l).Perm l := by
  induction l with
  | nil => simp [pySortDesc]
  | cons x xs ih =>
      exact (sortInsert_perm key x (pySortDesc key xs)).trans (List.Perm.cons x ih)

theorem sortInsert_pairwise {A : Type} (key : A → Int) (x : A) (l : List A)
    (h : l.Pairwise (fun a b => key b ≤ key a)) :
    (sortInsert key x l).Pairwise (fun a b => key b ≤ key a) := by
  induction l with
  | nil => simp [sortInsert]
  | cons y ys ih =>
      rw [List.pairwise_cons] at h
      by_cases hk : key x < key y
      · simp only [sortInsert, if_pos hk]
        rw [List.pairwise_cons]
        refine ⟨?_, ih h.2⟩
        intro a ha
        rcases List.mem_cons.mp (((sortInsert_perm key x ys).mem_iff).mp ha) with h1 | h1
        · subst h1; omega
        · exact h.1 a h1
      · simp only [sortInsert, if_neg hk]
        rw [List.pairwise_cons]
        refine ⟨?_, List.Pairwise.cons h.1 h.2⟩
        intro a ha
        rcases List.mem_cons.mp ha with h1 | h1
        · subst h1; omega
        · have := h.1 a h1; omega

theorem pySortDesc_pairwise {A : Type} (key : A → Int) (l : List A) :
    (pySortDesc key l).Pairwise (fun a b => key b ≤ key a) := by
  induction l with
  | nil => simp [pySortDesc]
  | cons x xs ih => exact sortInsert_pairwise key x _ ih

theorem sortInsert_filter_key {A : Type} (key : A → Int) (x : A) (l : List A)
    (c : Int) (hl : l.Pairwise (fun a b => key b ≤ key a)) :
    (sortInsert key x l).filter (fun a => key a == c) =
      (x :: l).filter (fun a => key a == c) := by
  induction l with
  | nil => simp [sortInsert]
  | cons y ys ih =>
      rw [List.pairwise_cons] at hl
      by_cases hk : key x < key y
      · simp only [sortInsert, if_pos hk]
        by_cases hx : key x = c
        · have hy : ¬ key y = c := by omega
          simp [List.filter_cons, hx, hy, ih hl.2]
        · by_cases hy : key y = c
          · simp [List.filter_cons, hx, hy, ih hl.2]
          · simp [List.filter_cons, hx, hy, ih hl.2]
      · simp [sortInsert, if_neg hk]

theorem pySortDesc_filter_key {A : Type} (key : A → Int) (l : List A) (c : Int) :
    (pySortDesc key l).filter (fun a => key a == c) =
      l.filter (fun a => key a == c) := by
  induction l with
  | nil => simp [pySortDesc]
  | cons x xs ih =>
      rw [pySortDesc, sortInsert_filter_key key x _ c (pySortDesc_pairwise key xs)]
      simp only [List.filter_cons, ih]

/-- Piece kinds (python-chess `piece_type` integers 1..6). -/
inductive PieceT where
  | pawn : PieceT
  | knight : PieceT
  | bishop : PieceT
  | rook : PieceT
  | queen : PieceT
  | king : PieceT
deriving DecidableEq, Repr

/-- The bot's `mvv_lva` dictionary (note queen is 9 here although the
static evaluator uses 10; every piece kind is a key, so the `.get`
default 0 of the source is unreachable). -/
def mvvLva : PieceT → Int
  | .pawn => 1
  | .knight => 3
  | .bishop => 3
  | .rook => 5
  | .queen => 9
  | .king => 1000

/-- Abstract rules engine: the operations `chess_bot.py` consumes from the
external `python-chess` library, over board type `B`, move type `M` and
position-key type `K` (`board.fen()` strings in the source).  The static
evaluator is also a field here because the search-level claims do not
depend on its internals; claim C8 studies the concrete evaluator
separately. -/
structure Engine (K B M : Type) where
  legalMoves : B → List M
  push : B → M → B
  isGameOver : B → Bool
  isCapture : B → M → Bool
  isPromo : M → Bool
  fromSquare : M → Nat
  toSquare : M → Nat
  pieceAt : B → Nat → Option PieceT
  evaluate : B → Int
  key : B → K
  turn : B → Bool

/-- The bot's mutable state: the board object with its move stack (`cur`
is the current position, `hist` the stack of previous ones), the
transposition table, the killer-move array, the history table, the index
of the next `time.time()` reading, and a ghost log of all pushes ever
made (newest first; it influences no behaviour). -/
structure St (K B M : Type) where
  cur : B
  hist : List B
  tt : TranspositionTable K M
  killers : List (Option M)
  history : Nat → Nat → Int
  clock : Nat
  log : List (B × M)

/-- `self.board.push(move)`, with the ghost log entry. -/
def pushState {K B M : Type} (R : Engine K B M) (s : St K B M) (m : M) :
    St K B M :=
  { s with cur := R.push s.cur m, hist := s.cur :: s.hist,
           log := (s.cur, m) :: s.log }

/-- `self.board.pop()` (never called on an empty stack by the bot). -/
def popState {K B M : Type} (s : St K B M) : St K B M :=
  match s.hist with
  | [] => s
  | b :: rest => { s with cur := b, hist := rest }

/-- `_score_move_mvv_lva`: MVV-LVA capture value (flat 1000 when a piece
cannot be resolved), +800 for a promotion, plus the history-heuristic
counter of the origin square. -/
def scoreMvvLva {K B M : Type} (R : Engine K B M) (b : B)
    (hist : Nat → Nat → Int) (m : M) : Int :=
  (if R.isCapture b m then
     match R.pieceAt b (R.toSquare m), R.pieceAt b (R.fromSquare m) with
     | some victim, some attacker => 1000 * mvvLva victim - mvvLva attacker
     | _, _ => 1000
   else 0)
  + (if R.isPromo m then 800 else 0)
  + hist (R.fromSquare m / 8) (R.fromSquare m % 8)

/-- The raw transposition-table best move used by `order_moves`
(`tt_entry[3] if tt_entry else None`: no depth or bound filtering). -/
def ttBestMove {K B M : Type} [DecidableEq K] (R : Engine K B M)
    (s : St K B M) : Option M :=
  match dictGet s.tt.table (R.key s.cur) with
  | some e => e.move
  | none => none

/-- The score `order_moves` computes for one candidate move. -/
def orderScore {K B M : Type} [DecidableEq K] [DecidableEq M]
    (R : Engine K B M) (s : St K B M) (depth : Nat) (m : M) : Int :=
  (match ttBestMove R s with
   | some b0 => if m = b0 then 1000000 else 0
   | none => 0)
  + scoreMvvLva R s.cur s.history m
  + (if depth < s.killers.length ∧ s.killers.getD depth none = some m
     then 500 else 0)

/-- `order_moves(moves, depth)`: score each move, stable sort descending
by score, return the moves. -/
def order_moves {K B M : Type} [DecidableEq K] [DecidableEq M]
    (R : Engine K B M) (s : St K B M) (moves : List M) (depth : Nat) :
    List M :=
  let scored := moves.map fun m => (orderScore R s depth m, m)
  (pySortDesc (fun p => p.1) scored).map (fun p => p.2)

/-- The per-move ordering score as claim C6 words it: +1,000,000 for the
transposition table's recorded best move (raw entry, ignoring bound and
depth); for captures 1000 times the victim's value minus the attacker's
value, or a flat 1000 when a piece cannot be resolved; +800 for any
promotion (additive); +500 when the move equals the recorded killer move
at this ply; plus the history-table count of the origin square. -/
def orderScoreSpec {K B M : Type} [DecidableEq K] [DecidableEq M]
    (R : Engine K B M) (s : St K B M) (depth : Nat) (m : M) : Int :=
  (match dictGet s.tt.table (R.key s.cur) with
   | some e => if e.move = some m then 1000000 else 0
   | none => 0)
  + (if R.isCapture s.cur m then
       match R.pieceAt s.cur (R.toSquare m), R.pieceAt s.cur (R.fromSquare m) with
       | some victim, some attacker => 1000 * mvvLva victim - mvvLva attacker
       | _, _ => 1000
     else 0)
  + (if R.isPromo m then 800 else 0)
  + (if s.killers.getD depth none = some m then 500 else 0)
  + s.history (R.fromSquare m / 8) (R.fromSquare m % 8)

theorem orderScore_eq_spec {K B M : Type} [DecidableEq K] [DecidableEq M]
    (R : Engine K B M) (s : St K B M) (depth : Nat) (m : M) :
    orderScore R s depth m = orderScoreSpec R s depth m := by
  have hkill2 : (if depth < s.killers.length ∧ s.killers.getD depth none = some m
      then (500 : Int) else 0)
      = (if s.killers.getD depth none = some m then 500 else 0) := by
    by_cases hlen : depth < s.killers.length
    · by_cases hk : s.killers.getD depth none = some m
      · rw [if_pos ⟨hlen, hk⟩, if_pos hk]
      · rw [if_neg (fun hc => hk hc.2), if_neg hk]
    · have h0 : s.killers.getD depth none = none := by
        rw [List.getD_eq_default]; omega
      rw [h0, if_neg (fun hc => Option.noConfusion hc.2),
        if_neg (fun hc => Option.noConfusion hc)]
  have htt : (match ttBestMove R s with
      | some b0 => if m = b0 then (1000000 : Int) else 0
      | none => 0)
      = (match dictGet s.tt.table (R.key s.cur) with
         | some e => if e.move = some m then (1000000 : Int) else 0
         | none => 0) := by
    unfold ttBestMove
    cases dictGet s.tt.table (R.key s.cur) with
    | none => rfl
    | some e =>
        obtain ⟨d0, sc0, fl0, mv0⟩ := e
        cases mv0 with
        | none => simp
        | some b0 =>
            by_cases hm : m = b0
            · subst hm; simp
            · have hm2 : ¬ b0 = m := fun h => hm h.symm
              simp [hm, hm2]
  unfold orderScore orderScoreSpec scoreMvvLva
  rw [hkill2, htt]
  ring

/-- C6: `order_moves` returns the input moves sorted in descending order
of the score from claim C6 (+1,000,000 for the raw transposition-table
best move; MVV-LVA capture value or flat 1000; +800 for promotions;
+500 for the killer move at this ply; plus the origin-square history
count), with ties broken by original enumeration order (stable sort):
the output is a permutation of the input, pairwise sorted by descending
score, and filtering any score class preserves the input order. -/
theorem C6_order_moves_sorted_stable {K B M : Type} [DecidableEq K]
    [DecidableEq M] (R : Engine K B M) (s : St K B M) (moves : List M)
    (depth : Nat) :
    (order_moves R s moves depth).Perm moves ∧
    (order_moves R s moves depth).Pairwise
      (fun a b => orderScoreSpec R s depth b ≤ orderScoreSpec R s depth a) ∧
    (∀ c : Int,
      (order_moves R s moves depth).filter
          (fun m => orderScoreSpec R s depth m == c)
        = moves.filter (fun m => orderScoreSpec R s depth m == c)) := by
  have hfun : orderScore R s depth = orderScoreSpec R s depth :=
    funext (orderScore_eq_spec R s depth)
  have hout : order_moves R s moves depth
      = (pySortDesc (fun p : Int × M => p.1)
          (moves.map fun m => (orderScoreSpec R s depth m, m))).map
            (fun p => p.2) := by
    unfold order_moves
    rw [hfun]
  have hsnd : (moves.map fun m => (orderScoreSpec R s depth m, m)).map
      (fun p : Int × M => p.2) = moves := by
    rw [List.map_map]
    exact List.map_id moves
  have hshape : ∀ p ∈ pySortDesc (fun p : Int × M => p.1)
      (moves.map fun m => (orderScoreSpec R s depth m, m)),
      p.1 = orderScoreSpec R s depth p.2 := by
    intro p hp
    have hmem : p ∈ moves.map fun m => (orderScoreSpec R s depth m, m) :=
      ((pySortDesc_perm _ _).mem_iff).mp hp
    obtain ⟨m, _, hpe⟩ := List.mem_map.mp hmem
    rw [← hpe]
  refine ⟨?_, ?_, ?_⟩
  · rw [hout]
    have hperm := (pySortDesc_perm (fun p : Int × M => p.1)
      (moves.map fun m => (orderScoreSpec R s depth m, m))).map
        (fun p : Int × M => p.2)
    rw [hsnd] at hperm
    exact hperm
  · rw [hout, List.pairwise_map]
    have hp := pySortDesc_pairwise (fun p : Int × M => p.1)
      (moves.map fun m => (orderScoreSpec R s depth m, m))
    exact List.Pairwise.imp_of_mem
      (fun {a b} ha hb hr => by rw [← hshape a ha, ← hshape b hb]; exact hr) hp
  · intro c
    rw [hout, List.filter_map]
    have h1 : (pySortDesc (fun p : Int × M => p.1)
        (moves.map fun m => (orderScoreSpec R s depth m, m))).filter
          ((fun m => orderScoreSpec R s depth m == c) ∘ fun p : Int × M => p.2)
        = (pySortDesc (fun p : Int × M => p.1)
            (moves.map fun m => (orderScoreSpec R s depth m, m))).filter
          (fun a => (fun p : Int × M => p.1) a == c) := by
      apply List.filter_congr
      intro p hp
      simp only [Function.comp]
      rw [hshape p hp]
    rw [h1, pySortDesc_filter_key]
    have h2 : (moves.map fun m => (orderScoreSpec R s depth m, m)).filter
        (fun a => (fun p : Int × M => p.1) a == c)
        = (moves.map fun m => (orderScoreSpec R s depth m, m)).filter
          ((fun m => orderScoreSpec R s depth m == c) ∘ fun p : Int × M => p.2) := by
      apply List.filter_congr
      intro p hp
      obtain ⟨m, _, hpe⟩ := List.mem_map.mp hp
      subst hpe
      simp [Function.comp]
    rw [h2, ← List.filter_map, hsnd]

/-- The `time.time()` deadline test shared by `search` entry and the move
loop: when both `start_time` and `time_limit` are set, read the clock
(consuming one oracle index) and compare; Python's `and` short-circuit
means no clock read happens otherwise. -/
def timeCheck {K B M : Type} (tick : Nat → Int) (startT timeL : Option Int)
    (s : St K B M) : Bool × St K B M :=
  match startT, timeL with
  | some st, some tl =>
      (decide (tick s.clock - st ≥ tl), { s with clock := s.clock + 1 })
  | _, _ => (false, s)

/-- One pass of the move loop in `quiescence`: skip non-capture,
non-promotion moves; push, recurse one quiescence level deeper (`rec`),
negate, pop; return beta on a fail-high, else raise alpha. -/
def qloop {K B M : Type} (R : Engine K B M)
    (rec : XInt → XInt → St K B M → Option (XInt × St K B M)) :
    List M → XInt → XInt → St K B M → Option (XInt × St K B M)
  | [], alpha, _, s => some (alpha, s)
  | m :: ms, alpha, beta, s =>
      if !(R.isCapture s.cur m) && !(R.isPromo m) then
        qloop R rec ms alpha beta s
      else
        match rec (XInt.neg beta) (XInt.neg alpha) (pushState R s m) with
        | none => none
        | some (sc0, s2) =>
            if XInt.ble beta (XInt.neg sc0) then some (beta, popState s2)
            else
              qloop R rec ms
                (if XInt.blt alpha (XInt.neg sc0) then XInt.neg sc0 else alpha)
                beta (popState s2)

/-- `quiescence(alpha, beta)`: stand-pat cutoff, then captures and
promotions only, ordered by `_score_move_mvv_lva` descending.  The fuel
argument bounds the recursion depth (the source has none); `none` means
the fuel ran out. -/
def quiescence {K B M : Type} (R : Engine K B M) :
    Nat → XInt → XInt → St K B M → Option (XInt × St K B M)
  | 0, _, _, _ => none
  | fuel + 1, alpha, beta, s =>
      if XInt.ble beta (XInt.fin (R.evaluate s.cur)) then some (beta, s)
      else
        qloop R (quiescence R fuel)
          (pySortDesc (fun m => scoreMvvLva R s.cur s.history m)
            (R.legalMoves s.cur))
          (if XInt.blt alpha (XInt.fin (R.evaluate s.cur))
           then XInt.fin (R.evaluate s.cur) else alpha)
          beta s

/-- Outcome of the move loop in `search`: an early `return` out of the
whole function (beta cutoff), or falling past the loop (exhaustion or
`break`) with the partial best move and best eval. -/
inductive LoopOut (K B M : Type) where
  | ret : Option M × Option XInt → St K B M → LoopOut K B M
  | fall : Option M → XInt → St K B M → LoopOut K B M

/-- The move loop of `search`: per-sibling time check (`break` on
deadline), push / recurse / negate / pop, `break` when the child returned
a `None` score, best/alpha bookkeeping, and the beta-cutoff block (killer
move, LOWER-bound store, history bump, early return). -/
def sloop {K B M : Type} [DecidableEq K] [DecidableEq M] (R : Engine K B M)
    (tick : Nat → Int) (startT timeL : Option Int) (key : K) (depth : Nat)
    (rec : XInt → XInt → Bool → St K B M →
      Option ((Option M × Option XInt) × St K B M))
    (isMax : Bool) (beta : XInt) :
    List M → XInt → Option M → XInt → St K B M → Option (LoopOut K B M)
  | [], _, bestMove, bestEval, s => some (.fall bestMove bestEval s)
  | m :: ms, alpha, bestMove, bestEval, s =>
      let chk := timeCheck tick startT timeL s
      if chk.1 then some (.fall bestMove bestEval chk.2)
      else
        match rec (XInt.neg beta) (XInt.neg alpha) (!isMax)
            (pushState R chk.2 m) with
        | none => none
        | some ((_, childEval), s2) =>
            match childEval with
            | none => some (.fall bestMove bestEval (popState s2))
            | some ev0 =>
                let evalScore := XInt.neg ev0
                let s3 := popState s2
                let best2 : Option M × XInt :=
                  if XInt.blt bestEval evalScore then (some m, evalScore)
                  else (bestMove, bestEval)
                let alpha2 :=
                  if XInt.blt alpha evalScore then evalScore else alpha
                if XInt.ble beta alpha2 then
                  let killers2 :=
                    if depth < s3.killers.length then
                      s3.killers.set depth (some m)
                    else s3.killers
                  let tt2 := s3.tt.store key depth best2.2 TTFlag.LOWER best2.1
                  let hist2 := fun r f =>
                    if r = R.fromSquare m / 8 ∧ f = R.fromSquare m % 8 then
                      s3.history r f + 1
                    else s3.history r f
                  some (.ret (best2.1, some best2.2)
                    { s3 with killers := killers2, tt := tt2, history := hist2 })
                else
                  sloop R tick startT timeL key depth rec isMax beta ms alpha2
                    best2.1 best2.2 s3

/-- The `depth == 0 or game over` leaf: store the eval as EXACT with no
best move, return `(None, eval_score)`. -/
def leafReturn {K B M : Type} [DecidableEq K] (key : K) (depth : Nat)
    (evalScore : XInt) (s : St K B M) :
    (Option M × Option XInt) × St K B M :=
  ((none, some evalScore),
    { s with tt := s.tt.store key depth evalScore TTFlag.EXACT none })

/-- `search(depth, alpha, beta, is_maximizing, start_time, time_limit)`:
entry deadline check (returning `(None, 0)`), transposition probe, leaf
hand-off to quiescence / static eval, then the ordered move loop; on
normal or broken loop exit, store as EXACT (static eval replaces an
untouched `float("-inf")` best) and return the partial best.  `none`
is only the fuel-exhaustion artifact of the quiescence model. -/
def search {K B M : Type} [DecidableEq K] [DecidableEq M] (R : Engine K B M)
    (tick : Nat → Int) (qfuel : Nat) :
    Nat → XInt → XInt → Bool → Option Int → Option Int → St K B M →
      Option ((Option M × Option XInt) × St K B M)
  | 0, alpha, beta, _, startT, timeL, s =>
      let chk := timeCheck tick startT timeL s
      if chk.1 then some ((none, some (XInt.fin 0)), chk.2)
      else
        let s0 := chk.2
        let key := R.key s0.cur
        match s0.tt.lookup key 0 alpha beta with
        | some (ttMove, ttEval, _) => some ((ttMove, some ttEval), s0)
        | none =>
            match quiescence R qfuel alpha beta s0 with
            | none => none
            | some (evalScore, s1) => some (leafReturn key 0 evalScore s1)
  | depth + 1, alpha, beta, isMax, startT, timeL, s =>
      let chk := timeCheck tick startT timeL s
      if chk.1 then some ((none, some (XInt.fin 0)), chk.2)
      else
        let s0 := chk.2
        let key := R.key s0.cur
        match s0.tt.lookup key (depth + 1) alpha beta with
        | some (ttMove, ttEval, _) => some ((ttMove, some ttEval), s0)
        | none =>
            if R.isGameOver s0.cur then
              some (leafReturn key (depth + 1) (XInt.fin (R.evaluate s0.cur)) s0)
            else
              let moves := order_moves R s0 (R.legalMoves s0.cur) (depth + 1)
              match sloop R tick startT timeL key (depth + 1)
                  (fun a b im s2 => search R tick qfuel depth a b im startT timeL s2)
                  isMax beta moves alpha none XInt.negInf s0 with
              | none => none
              | some (.ret r s4) => some (r, s4)
              | some (.fall bm be s4) =>
                  let stored :=
                    if be ≠ XInt.negInf then be
                    else XInt.fin (R.evaluate s4.cur)
                  some ((bm, some be),
                    { s4 with tt := s4.tt.store key (depth + 1) stored TTFlag.EXACT bm })

/-- The `while depth <= max_depth` loop of `iterative_deepening`:
`remaining` counts the iterations left (`max_depth + 1 - depth`). -/
def idLoop {K B M : Type} [DecidableEq K] [DecidableEq M] (R : Engine K B M)
    (tick : Nat → Int) (qfuel : Nat) (startT timeLimit : Int) :
    Nat → Nat → Option M → St K B M → Option (Option M × St K B M)
  | 0, _, bestMove, s => some (bestMove, s)
  | remaining + 1, depth, bestMove, s =>
      let elapsed := tick s.clock - startT
      let s0 := { s with clock := s.clock + 1 }
      if elapsed ≥ timeLimit then some (bestMove, s0)
      else
        match search R tick qfuel depth XInt.negInf XInt.posInf
            (R.turn s0.cur) (some startT) (some timeLimit) s0 with
        | none => none
        | some ((mv, _), s1) =>
            idLoop R tick qfuel startT timeLimit remaining (depth + 1)
              (match mv with | some m => some m | none => bestMove) s1

/-- `iterative_deepening(max_depth, time_limit_seconds)`: record the
start time, then deepen from depth 1, keeping the last move returned. -/
def iterative_deepening {K B M : Type} [DecidableEq K] [DecidableEq M]
    (R : Engine K B M) (tick : Nat → Int) (qfuel : Nat) (maxDepth : Nat)
    (timeLimit : Int) (s : St K B M) : Option (Option M × St K B M) :=
  let startT := tick s.clock
  idLoop R tick qfuel startT timeLimit maxDepth 1 none
    { s with clock := s.clock + 1 }

/-- A tiny concrete rules engine: position `0` has one legal move, to the
terminal position `1`; all other positions have no moves. -/
def oneMoveEngine : Engine Nat Nat Nat :=
  { legalMoves := fun b => if b = 0 then [1] else []
    push := fun _ m => m
    isGameOver := fun _ => false
    isCapture := fun _ _ => false
    isPromo := fun _ => false
    fromSquare := fun _ => 0
    toSquare := fun _ => 0
    pieceAt := fun _ _ => none
    evaluate := fun b => if b = 1 then 5 else if b = 2 then -3 else 0
    key := fun b => b
    turn := fun _ => true }

/-- Same engine but position `0` has two legal moves, to `1` and to `2`
(`2` is the better reply for the mover: its static eval favours the
pusher after negation). -/
def twoMoveEngine : Engine Nat Nat Nat :=
  { oneMoveEngine with legalMoves := fun b => if b = 0 then [1, 2] else [] }

/-- The bot's initial state at position `0`: empty transposition table of
capacity 100000, five empty killer slots, zero history, clock index 0. -/
def botInit : St Nat Nat Nat :=
  { cur := 0, hist := [], tt := ⟨[], 100000⟩,
    killers := [none, none, none, none, none],
    history := fun _ _ => 0, clock := 0, log := [] }

/-- Clock whose third and later readings are past any small deadline. -/
def tick1 : Nat → Int := fun i => if i ≤ 1 then 0 else 100

/-- Clock whose fourth and later readings are past any small deadline. -/
def tick2 : Nat → Int := fun i => if i ≤ 2 then 0 else 100

/-- C1 (refuted; code bug): `search` with the deadline already passed at
entry returns `(None, 0)` — the score slot holds the *numeric* value `0`,
not a non-numeric sentinel (first conjunct, a depth‑0 call whose entry
deadline test fires).  Consequently a caller receiving it from a child
does not propagate any sentinel: the `eval_score is None` test never
fires (the score is `0`, not `None`), so the parent negates the
fabricated `0`, adopts the child's move as best with score `0`, and
returns it as an ordinary search value (second conjunct: the depth‑1
parent whose only child call times out returns `(some 1, 0)`). -/
theorem C1_deadline_zero_not_sentinel :
    (search oneMoveEngine tick1 5 0 XInt.negInf XInt.posInf true
        (some 0) (some 0) botInit).map (fun r => r.1)
      = some (none, some (XInt.fin 0)) ∧
    (search oneMoveEngine tick1 5 1 XInt.negInf XInt.posInf true
        (some 0) (some 50) botInit).map (fun r => r.1)
      = some (some 1, some (XInt.fin 0)) := by
  constructor
  · decide
  · decide

/-- C2 (refuted; code bug): a node whose move loop is aborted by the
between-siblings deadline check does *not* discard its partial best move:
it returns it and stores it in the transposition table as an EXACT entry.
Here the depth‑1 node searched only its first child (score −5) before the
deadline broke the loop: it returns `(some 1, −5)` and the table maps the
node's key `0` to `⟨depth 1, −5, EXACT, best move 1⟩` (first conjunct),
although the full search of the same position prefers move `2` with score
`3` (second conjunct). -/
theorem C2_abort_stores_and_returns_partial :
    (search twoMoveEngine tick2 5 1 XInt.negInf XInt.posInf true
        (some 0) (some 50) botInit).map
        (fun r => (r.1, dictGet r.2.tt.table 0))
      = some ((some 1, some (XInt.fin (-5))),
          some ⟨1, XInt.fin (-5), TTFlag.EXACT, some 1⟩) ∧
    (search twoMoveEngine tick2 5 1 XInt.negInf XInt.posInf true
        none none botInit).map (fun r => r.1)
      = some (some 2, some (XInt.fin 3)) := by
  constructor
  · decide
  · decide

/-- C3 counterexample: with a time budget of `0` and a clock that does
not advance at all, `iterative_deepening` on a position with legal moves
returns no move — the depth‑1 search never runs, because the pre-depth
elapsed-time check `0 ≥ 0` fires before depth 1 starts. -/
theorem C3_zero_budget_counterexample :
    (iterative_deepening twoMoveEngine (fun _ => 0) 5 3 0 botInit).map
        (fun r => r.1) = some none ∧
    twoMoveEngine.legalMoves botInit.cur ≠ [] := by
  constructor
  · decide
  · decide

/-- C3 (amended): with a time budget of at most 0 seconds and a monotone
clock, `iterative_deepening` stops at the pre-depth time check before
depth 1 and returns no move; the depth-1 search is never started. -/
theorem C3_amended_zero_budget_no_move {K B M : Type} [DecidableEq K]
    [DecidableEq M] (R : Engine K B M) (tick : Nat → Int)
    (qfuel maxDepth : Nat) (timeLimit : Int) (s : St K B M)
    (hmono : tick s.clock ≤ tick (s.clock + 1)) (hlim : timeLimit ≤ 0) :
    (iterative_deepening R tick qfuel maxDepth timeLimit s).map
      (fun r => r.1) = some none := by
  unfold iterative_deepening
  cases maxDepth with
  | zero => simp [idLoop]
  | succ k =>
      rw [idLoop]
      have hfire : tick (s.clock + 1) - tick s.clock ≥ timeLimit := by omega
      simp [hfire]

/-- Witness for the amended C3 at a concrete engine, clock and state. -/
theorem C3_amended_zero_budget_no_move_witness :
    (iterative_deepening oneMoveEngine (fun _ => 0) 5 4 0 botInit).map
      (fun r => r.1) = some none :=
  C3_amended_zero_budget_no_move oneMoveEngine (fun _ => 0) 5 4 0 botInit
    (by decide) (by decide)

theorem popState_of_hist {K B M : Type} {s : St K B M} {b : B} {rest : List B}
    (h : s.hist = b :: rest) :
    popState s = { s with cur := b, hist := rest } := by
  unfold popState
  rw [h]

theorem qloop_preserves {K B M : Type} (R : Engine K B M)
    (rec : XInt → XInt → St K B M → Option (XInt × St K B M))
    (hrec : ∀ a b s r s2, rec a b s = some (r, s2) →
      s2.cur = s.cur ∧ s2.hist = s.hist) :
    ∀ (ms : List M) (alpha beta : XInt) (s : St K B M) (out : XInt × St K B M),
      qloop R rec ms alpha beta s = some out →
      out.2.cur = s.cur ∧ out.2.hist = s.hist := by
  intro ms
  induction ms with
  | nil =>
      intro alpha beta s out h
      rw [qloop] at h
      cases h
      exact ⟨rfl, rfl⟩
  | cons m ms ih =>
      intro alpha beta s out h
      rw [qloop] at h
      split at h
      · exact ih _ _ _ _ h
      · cases hrc : rec (XInt.neg beta) (XInt.neg alpha) (pushState R s m) with
        | none => rw [hrc] at h; cases h
        | some p =>
            obtain ⟨sc0, s2⟩ := p
            rw [hrc] at h
            dsimp only at h
            have hps := hrec _ _ _ _ _ hrc
            have hpop : popState s2 = { s2 with cur := s.cur, hist := s.hist } :=
              popState_of_hist (by rw [hps.2]; rfl)
            split at h
            · cases h
              refine ⟨?_, ?_⟩
              · show (popState s2).cur = s.cur
                rw [hpop]
              · show (popState s2).hist = s.hist
                rw [hpop]
            · have hres := ih _ _ _ _ h
              rw [hpop] at hres
              exact hres

theorem quiescence_preserves {K B M : Type} (R : Engine K B M) :
    ∀ (fuel : Nat) (alpha beta : XInt) (s : St K B M) (out : XInt × St K B M),
      quiescence R fuel alpha beta s = some out →
      out.2.cur = s.cur ∧ out.2.hist = s.hist := by
  intro fuel
  induction fuel with
  | zero =>
      intro _ _ _ _ h
      rw [quiescence] at h
      cases h
  | succ fuel ih =>
      intro alpha beta s out h
      rw [quiescence] at h
      split at h
      · cases h
        exact ⟨rfl, rfl⟩
      · exact qloop_preserves R _
          (fun a b s1 r s2 hq => ih a b s1 (r, s2) hq) _ _ _ _ _ h

/-- The state carried by a move-loop outcome. -/
def LoopOut.state {K B M : Type} : LoopOut K B M → St K B M
  | .ret _ s => s
  | .fall _ _ s => s

theorem timeCheck_cur_hist {K B M : Type} (tick : Nat → Int)
    (startT timeL : Option Int) (s : St K B M) :
    (timeCheck tick startT timeL s).2.cur = s.cur ∧
    (timeCheck tick startT timeL s).2.hist = s.hist := by
  unfold timeCheck
  cases startT <;> cases timeL <;> exact ⟨rfl, rfl⟩

theorem sloop_preserves {K B M : Type} [DecidableEq K] [DecidableEq M]
    (R : Engine K B M) (tick : Nat → Int) (startT timeL : Option Int)
    (key : K) (depth : Nat)
    (rec : XInt → XInt → Bool → St K B M →
      Option ((Option M × Option XInt) × St K B M))
    (hrec : ∀ a b im s r s2, rec a b im s = some (r, s2) →
      s2.cur = s.cur ∧ s2.hist = s.hist)
    (isMax : Bool) (beta : XInt) :
    ∀ (ms : List M) (alpha : XInt) (bm : Option M) (be : XInt)
      (s : St K B M) (out : LoopOut K B M),
      sloop R tick startT timeL key depth rec isMax beta ms alpha bm be s
        = some out →
      out.state.cur = s.cur ∧ out.state.hist = s.hist := by
  intro ms
  induction ms with
  | nil =>
      intro alpha bm be s out h
      rw [sloop] at h
      cases h
      exact ⟨rfl, rfl⟩
  | cons m ms ih =>
      intro alpha bm be s out h
      rw [sloop] at h
      dsimp only at h
      have htc := timeCheck_cur_hist tick startT timeL s
      split at h
      · cases h
        exact htc
      · cases hrc : rec (XInt.neg beta) (XInt.neg alpha) (!isMax)
            (pushState R (timeCheck tick startT timeL s).2 m) with
        | none => rw [hrc] at h; cases h
        | some p =>
            obtain ⟨⟨mv0, childEval⟩, s2⟩ := p
            rw [hrc] at h
            dsimp only at h
            have hps := hrec _ _ _ _ _ _ hrc
            have hpop : popState s2 =
                { s2 with cur := (timeCheck tick startT timeL s).2.cur,
                          hist := (timeCheck tick startT timeL s).2.hist } :=
              popState_of_hist (by rw [hps.2]; rfl)
            have hc : (popState s2).cur = s.cur := by rw [hpop]; exact htc.1
            have hh : (popState s2).hist = s.hist := by rw [hpop]; exact htc.2
            cases childEval with
            | none =>
                dsimp only at h
                cases h
                exact ⟨hc, hh⟩
            | some ev0 =>
                dsimp only at h
                split at h <;> split at h <;>
                  first
                  | (cases h; exact ⟨hc, hh⟩)
                  | (have hres := ih _ _ _ _ _ h
                     exact ⟨hres.1.trans hc, hres.2.trans hh⟩)

theorem search_preserves {K B M : Type} [DecidableEq K] [DecidableEq M]
    (R : Engine K B M) (tick : Nat → Int) (qfuel : Nat) :
    ∀ (depth : Nat) (alpha beta : XInt) (isMax : Bool)
      (startT timeL : Option Int) (s : St K B M)
      (out : (Option M × Option XInt) × St K B M),
      search R tick qfuel depth alpha beta isMax startT timeL s = some out →
      out.2.cur = s.cur ∧ out.2.hist = s.hist := by
  intro depth
  induction depth with
  | zero =>
      intro alpha beta isMax startT timeL s out h
      rw [search] at h
      dsimp only at h
      have htc := timeCheck_cur_hist tick startT timeL s
      split at h
      · cases h; exact htc
      · split at h
        · cases h; exact htc
        · cases hq : quiescence R qfuel alpha beta
              (timeCheck tick startT timeL s).2 with
          | none => rw [hq] at h; cases h
          | some p =>
              obtain ⟨evalScore, s1⟩ := p
              rw [hq] at h
              dsimp only at h
              cases h
              have hqp := quiescence_preserves R qfuel alpha beta _ _ hq
              exact ⟨hqp.1.trans htc.1, hqp.2.trans htc.2⟩
  | succ depth ih =>
      intro alpha beta isMax startT timeL s out h
      rw [search] at h
      dsimp only at h
      have htc := timeCheck_cur_hist tick startT timeL s
      split at h
      · cases h; exact htc
      · split at h
        · cases h; exact htc
        · split at h
          · cases h; exact htc
          · cases hsl : sloop R tick startT timeL
                (R.key (timeCheck tick startT timeL s).2.cur) (depth + 1)
                (fun a b im s2 =>
                  search R tick qfuel depth a b im startT timeL s2)
                isMax beta
                (order_moves R (timeCheck tick startT timeL s).2
                  (R.legalMoves (timeCheck tick startT timeL s).2.cur)
                  (depth + 1))
                alpha none XInt.negInf (timeCheck tick startT timeL s).2 with
            | none => rw [hsl] at h; cases h
            | some lout =>
                rw [hsl] at h
                have hslp := sloop_preserves R tick startT timeL _ _ _
                  (fun a b im s3 r s4 hq => ih a b im startT timeL s3 (r, s4) hq)
                  isMax beta _ _ _ _ _ _ hsl
                cases lout with
                | ret r s4 =>
                    dsimp only at h
                    cases h
                    exact ⟨hslp.1.trans htc.1, hslp.2.trans htc.2⟩
                | fall bm be s4 =>
                    dsimp only at h
                    cases h
                    exact ⟨hslp.1.trans htc.1, hslp.2.trans htc.2⟩

/-- C9: every board mutation made during a top-level `search` or
`quiescence` call is undone before the call returns — on all paths,
including the deadline-abort ones — so the board object (current
position and its undo stack, hence also the position key) after the call
equals the one before. -/
theorem C9_board_restored {K B M : Type} [DecidableEq K] [DecidableEq M]
    (R : Engine K B M) (tick : Nat → Int) (qfuel : Nat) :
    (∀ (depth : Nat) (alpha beta : XInt) (isMax : Bool)
      (startT timeL : Option Int) (s : St K B M),
      (search R tick qfuel depth alpha beta isMax startT timeL s).isSome →
      (search R tick qfuel depth alpha beta isMax startT timeL s).map
        (fun r => (r.2.cur, r.2.hist, R.key r.2.cur))
        = some (s.cur, s.hist, R.key s.cur)) ∧
    (∀ (fuel : Nat) (alpha beta : XInt) (s : St K B M),
      (quiescence R fuel alpha beta s).isSome →
      (quiescence R fuel alpha beta s).map
        (fun r => (r.2.cur, r.2.hist, R.key r.2.cur))
        = some (s.cur, s.hist, R.key s.cur)) := by
  constructor
  · intro depth alpha beta isMax startT timeL s hs
    cases hout : search R tick qfuel depth alpha beta isMax startT timeL s with
    | none => rw [hout] at hs; cases hs
    | some out =>
        have hp := search_preserves R tick qfuel depth alpha beta isMax
          startT timeL s out hout
        simp [Option.map, hp.1, hp.2]
  · intro fuel alpha beta s hs
    cases hout : quiescence R fuel alpha beta s with
    | none => rw [hout] at hs; cases hs
    | some out =>
        have hp := quiescence_preserves R fuel alpha beta s out hout
        simp [Option.map, hp.1, hp.2]

/-- Witness for C9: a concrete timed search run (which aborts on the
deadline mid-node) and a concrete quiescence run both hand back the
initial board `0` with an empty undo stack. -/
theorem C9_board_restored_witness :
    (search twoMoveEngine tick2 5 1 XInt.negInf XInt.posInf true
        (some 0) (some 50) botInit).map
      (fun r => (r.2.cur, r.2.hist, twoMoveEngine.key r.2.cur))
      = some (botInit.cur, botInit.hist, twoMoveEngine.key botInit.cur) ∧
    (quiescence twoMoveEngine 5 XInt.negInf XInt.posInf botInit).map
      (fun r => (r.2.cur, r.2.hist, twoMoveEngine.key r.2.cur))
      = some (botInit.cur, botInit.hist, twoMoveEngine.key botInit.cur) := by
  constructor
  · exact (C9_board_restored twoMoveEngine tick2 5).1 1 XInt.negInf XInt.posInf
      true (some 0) (some 50) botInit (by decide)
  · exact (C9_board_restored twoMoveEngine tick2 5).2 5 XInt.negInf XInt.posInf
      botInit (by decide)

theorem XInt.ble_false {a b : XInt} (h : XInt.ble a b = false) :
    XInt.ble b a = true := by
  cases a <;> cases b <;> simp_all [XInt.ble]
  all_goals omega

theorem popState_log {K B M : Type} (s : St K B M) :
    (popState s).log = s.log := by
  unfold popState
  cases s.hist <;> rfl

/-- The score a `qloop` run returns is either `beta` or at least the
incoming `alpha`. -/
theorem qloop_result_ge {K B M : Type} (R : Engine K B M)
    (rec : XInt → XInt → St K B M → Option (XInt × St K B M)) :
    ∀ (ms : List M) (alpha beta : XInt) (s : St K B M) (out : XInt × St K B M),
      qloop R rec ms alpha beta s = some out →
      out.1 = beta ∨ XInt.ble alpha out.1 = true := by
  intro ms
  induction ms with
  | nil =>
      intro alpha beta s out h
      rw [qloop] at h
      cases h
      exact Or.inr (XInt.ble_refl alpha)
  | cons m ms ih =>
      intro alpha beta s out h
      rw [qloop] at h
      split at h
      · exact ih _ _ _ _ h
      · cases hrc : rec (XInt.neg beta) (XInt.neg alpha) (pushState R s m) with
        | none => rw [hrc] at h; cases h
        | some p =>
            obtain ⟨sc0, s2⟩ := p
            rw [hrc] at h
            dsimp only at h
            split at h
            · cases h
              exact Or.inl rfl
            · rcases ih _ _ _ _ h with hbeta | hge
              · exact Or.inl hbeta
              · refine Or.inr (XInt.ble_trans ?_ hge)
                split
                · rename_i hlt
                  exact XInt.ble_of_blt hlt
                · exact XInt.ble_refl alpha

/-- Every entry `qloop` adds to the push log is a capture or a promotion
(given that the recursive calls also only add such entries). -/
theorem qloop_log {K B M : Type} (R : Engine K B M)
    (rec : XInt → XInt → St K B M → Option (XInt × St K B M))
    (hrecLog : ∀ a b s r s2, rec a b s = some (r, s2) →
      ∀ e ∈ s2.log, e ∈ s.log ∨
        R.isCapture e.1 e.2 = true ∨ R.isPromo e.2 = true) :
    ∀ (ms : List M) (alpha beta : XInt) (s : St K B M) (out : XInt × St K B M),
      qloop R rec ms alpha beta s = some out →
      ∀ e ∈ out.2.log, e ∈ s.log ∨
        R.isCapture e.1 e.2 = true ∨ R.isPromo e.2 = true := by
  intro ms
  induction ms with
  | nil =>
      intro alpha beta s out h
      rw [qloop] at h
      cases h
      intro e he
      exact Or.inl he
  | cons m ms ih =>
      intro alpha beta s out h
      rw [qloop] at h
      split at h
      · exact ih _ _ _ _ h
      · rename_i hguard
        have hcp : R.isCapture s.cur m = true ∨ R.isPromo m = true := by
          by_cases hc : R.isCapture s.cur m = true
          · exact Or.inl hc
          · by_cases hp : R.isPromo m = true
            · exact Or.inr hp
            · exact absurd (by simp [Bool.eq_false_iff.mpr hc, Bool.eq_false_iff.mpr hp])
                hguard
        -- an entry of the pushed state's log is old, the new push, or from
        -- the recursive call; all qualify
        have hstep : ∀ (s2 : St K B M) (sc0 r : XInt),
            rec (XInt.neg beta) (XInt.neg alpha) (pushState R s m)
              = some (sc0, s2) →
            ∀ e ∈ s2.log, e ∈ s.log ∨
              R.isCapture e.1 e.2 = true ∨ R.isPromo e.2 = true := by
          intro s2 sc0 r hrc e he
          rcases hrecLog _ _ _ _ _ hrc e he with hin | hq
          · rcases List.mem_cons.mp hin with heq | hold
            · subst heq
              exact Or.inr hcp
            · exact Or.inl hold
          · exact Or.inr hq
        cases hrc : rec (XInt.neg beta) (XInt.neg alpha) (pushState R s m) with
        | none => rw [hrc] at h; cases h
        | some p =>
            obtain ⟨sc0, s2⟩ := p
            rw [hrc] at h
            dsimp only at h
            split at h
            · cases h
              intro e he
              rw [popState_log] at he
              exact hstep s2 sc0 sc0 hrc e he
            · intro e he
              rcases ih _ _ _ _ h e he with hin | hq
              · rw [popState_log] at hin
                exact hstep s2 sc0 sc0 hrc e hin
              · exact Or.inr hq

/-- Every entry `quiescence` adds to the push log is a capture or a
promotion move (pushed from the board it was legal on). -/
theorem quiescence_log {K B M : Type} (R : Engine K B M) :
    ∀ (fuel : Nat) (alpha beta : XInt) (s : St K B M) (out : XInt × St K B M),
      quiescence R fuel alpha beta s = some out →
      ∀ e ∈ out.2.log, e ∈ s.log ∨
        R.isCapture e.1 e.2 = true ∨ R.isPromo e.2 = true := by
  intro fuel
  induction fuel with
  | zero =>
      intro _ _ _ _ h
      rw [quiescence] at h
      cases h
  | succ fuel ih =>
      intro alpha beta s out h
      rw [quiescence] at h
      split at h
      · cases h
        intro e he
        exact Or.inl he
      · exact qloop_log R _
          (fun a b s1 r s2 hq => ih a b s1 (r, s2) hq) _ _ _ _ _ h

/-- C5: for every quiescence call with `alpha < beta` that returns: if
the stand-pat evaluation meets or exceeds beta, the call returns beta
with the state untouched (no move expanded); otherwise the returned
score is at least the stand-pat evaluation; and every move the call ever
pushes is a capture or a promotion. -/
theorem C5_quiescence_standpat {K B M : Type} (R : Engine K B M)
    (fuel : Nat) (alpha beta : XInt) (s : St K B M) (out : XInt × St K B M)
    (_hab : XInt.blt alpha beta = true)
    (h : quiescence R (fuel + 1) alpha beta s = some out) :
    (XInt.ble beta (XInt.fin (R.evaluate s.cur)) = true → out = (beta, s)) ∧
    (XInt.ble beta (XInt.fin (R.evaluate s.cur)) = false →
      XInt.ble (XInt.fin (R.evaluate s.cur)) out.1 = true) ∧
    (∀ e ∈ out.2.log, e ∈ s.log ∨
      R.isCapture e.1 e.2 = true ∨ R.isPromo e.2 = true) := by
  refine ⟨?_, ?_, quiescence_log R (fuel + 1) alpha beta s out h⟩
  · intro hsp
    rw [quiescence, if_pos hsp] at h
    cases h
    rfl
  · intro hsp
    rw [quiescence, if_neg (by rw [hsp]; exact Bool.false_ne_true)] at h
    rcases qloop_result_ge R _ _ _ _ _ _ h with hbeta | hge
    · rw [hbeta]
      exact XInt.ble_false hsp
    · by_cases hlt : XInt.blt alpha (XInt.fin (R.evaluate s.cur)) = true
      · rw [if_pos hlt] at hge
        exact hge
      · rw [if_neg hlt] at hge
        have hba : XInt.ble (XInt.fin (R.evaluate s.cur)) alpha = true := by
          have hf : XInt.blt alpha (XInt.fin (R.evaluate s.cur)) = false :=
            Bool.eq_false_iff.mpr hlt
          unfold XInt.blt at hf
          cases hb : XInt.ble (XInt.fin (R.evaluate s.cur)) alpha
          · rw [hb] at hf
            simp at hf
          · rfl
        exact XInt.ble_trans hba hge

/-- Witness for C5: concrete quiescence runs on the toy engine, one
fail-high (stand-pat ≥ beta returns beta at once) and one quiet position
whose result is bounded below by the stand-pat score. -/
theorem C5_quiescence_standpat_witness :
    ((XInt.fin (-5) : XInt), botInit) = ((XInt.fin (-5) : XInt), botInit) ∧
    XInt.ble (XInt.fin (twoMoveEngine.evaluate botInit.cur))
      (XInt.fin 0) = true := by
  constructor
  · exact (C5_quiescence_standpat twoMoveEngine 0 (XInt.fin (-7))
      (XInt.fin (-5)) botInit (XInt.fin (-5), botInit)
      (by decide) (by rfl)).1 (by decide)
  · exact (C5_quiescence_standpat twoMoveEngine 0 (XInt.fin (-7))
      (XInt.fin 9) botInit (XInt.fin 0, botInit)
      (by decide) (by rfl)).2.1 (by decide)

/-- `qloop` returns a result whenever the recursion depth available
(`fuel`) exceeds the capture-or-promotion measure of the current board:
every expanded move strictly decreases `pieces + pawns`, so each
recursive call is covered by `hrecSome`. -/
theorem qloop_total {K B M : Type} (R : Engine K B M)
    (pieces pawns : B → Nat) (fuel : Nat)
    (rec : XInt → XInt → St K B M → Option (XInt × St K B M))
    (hrecSome : ∀ a b s1, pieces s1.cur + pawns s1.cur < fuel →
      (rec a b s1).isSome = true)
    (hrecPres : ∀ a b s1 r s2, rec a b s1 = some (r, s2) →
      s2.cur = s1.cur ∧ s2.hist = s1.hist)
    (hcap : ∀ b m, m ∈ R.legalMoves b → R.isCapture b m = true →
      pieces (R.push b m) < pieces b ∧ pawns (R.push b m) ≤ pawns b)
    (hpromo : ∀ b m, m ∈ R.legalMoves b → R.isPromo m = true →
      R.isCapture b m = false →
      pawns (R.push b m) < pawns b ∧ pieces (R.push b m) ≤ pieces b) :
    ∀ (ms : List M) (alpha beta : XInt) (s : St K B M),
      (∀ m ∈ ms, m ∈ R.legalMoves s.cur) →
      pieces s.cur + pawns s.cur ≤ fuel →
      (qloop R rec ms alpha beta s).isSome = true := by
  intro ms
  induction ms with
  | nil =>
      intro alpha beta s _ _
      rw [qloop]
      rfl
  | cons m ms ih =>
      intro alpha beta s hms hfuel
      rw [qloop]
      split
      · exact ih _ _ _ (fun x hx => hms x (List.mem_cons_of_mem m hx)) hfuel
      · rename_i hguard
        have hlegal : m ∈ R.legalMoves s.cur := hms m (List.mem_cons_self m ms)
        have hdec : pieces (R.push s.cur m) + pawns (R.push s.cur m)
            < pieces s.cur + pawns s.cur := by
          by_cases hc : R.isCapture s.cur m = true
          · have := hcap s.cur m hlegal hc
            omega
          · have hp : R.isPromo m = true := by
              by_cases hp0 : R.isPromo m = true
              · exact hp0
              · exact absurd
                  (by simp [Bool.eq_false_iff.mpr hc, Bool.eq_false_iff.mpr hp0])
                  hguard
            have := hpromo s.cur m hlegal hp (Bool.eq_false_iff.mpr hc)
            omega
        have hsome := hrecSome (XInt.neg beta) (XInt.neg alpha)
          (pushState R s m) (by exact Nat.lt_of_lt_of_le hdec hfuel)
        cases hrc : rec (XInt.neg beta) (XInt.neg alpha) (pushState R s m) with
        | none => rw [hrc] at hsome; cases hsome
        | some p =>
            obtain ⟨sc0, s2⟩ := p
            dsimp only
            split
            · rfl
            · have hps := hrecPres _ _ _ _ _ hrc
              have hpop : popState s2 =
                  { s2 with cur := s.cur, hist := s.hist } :=
                popState_of_hist (by rw [hps.2]; rfl)
              refine ih _ _ _ ?_ ?_
              · intro x hx
                rw [hpop]
                exact hms x (List.mem_cons_of_mem m hx)
              · rw [hpop]
                exact hfuel

/-- `quiescence` returns a result whenever the fuel exceeds the
capture-or-promotion measure of the current board. -/
theorem quiescence_total {K B M : Type} (R : Engine K B M)
    (pieces pawns : B → Nat)
    (hcap : ∀ b m, m ∈ R.legalMoves b → R.isCapture b m = true →
      pieces (R.push b m) < pieces b ∧ pawns (R.push b m) ≤ pawns b)
    (hpromo : ∀ b m, m ∈ R.legalMoves b → R.isPromo m = true →
      R.isCapture b m = false →
      pawns (R.push b m) < pawns b ∧ pieces (R.push b m) ≤ pieces b) :
    ∀ (fuel : Nat) (alpha beta : XInt) (s : St K B M),
      pieces s.cur + pawns s.cur < fuel →
      (quiescence R fuel alpha beta s).isSome = true := by
  intro fuel
  induction fuel with
  | zero =>
      intro _ _ _ hlt
      exact absurd hlt (Nat.not_lt_zero _)
  | succ fuel ih =>
      intro alpha beta s hlt
      rw [quiescence]
      split
      · rfl
      · refine qloop_total R pieces pawns fuel _
          (fun a b s1 hf => ih a b s1 hf)
          (fun a b s1 r s2 hq => quiescence_preserves R fuel a b s1 (r, s2) hq)
          hcap hpromo _ _ _ _ ?_ ?_
        · intro x hx
          exact ((pySortDesc_perm _ _).mem_iff).mp hx
        · omega

/-- C10: `quiescence` terminates although it has no depth parameter:
every recursive call follows a capture or a promotion move, and under
the chess facts that a capture strictly decreases the piece count (and
does not increase the pawn count) while a promotion strictly decreases
the pawn count (and does not increase the piece count), any chain of
such moves is shorter than `pieces + pawns` of the start position: with
that much fuel the model never reports fuel exhaustion. -/
theorem C10_quiescence_terminates {K B M : Type} (R : Engine K B M)
    (pieces pawns : B → Nat)
    (hcap : ∀ b m, m ∈ R.legalMoves b → R.isCapture b m = true →
      pieces (R.push b m) < pieces b ∧ pawns (R.push b m) ≤ pawns b)
    (hpromo : ∀ b m, m ∈ R.legalMoves b → R.isPromo m = true →
      R.isCapture b m = false →
      pawns (R.push b m) < pawns b ∧ pieces (R.push b m) ≤ pieces b)
    (fuel : Nat) (alpha beta : XInt) (s : St K B M)
    (hfuel : pieces s.cur + pawns s.cur < fuel) :
    (quiescence R fuel alpha beta s).isSome = true :=
  quiescence_total R pieces pawns hcap hpromo fuel alpha beta s hfuel

/-- A toy capture-chain engine: position `n > 0` has one legal move, a
capture leading to `n - 1`; the piece count of `n` is `n`. -/
def captureChainEngine : Engine Nat Nat Nat :=
  { legalMoves := fun b => if b = 0 then [] else [b - 1]
    push := fun _ m => m
    isGameOver := fun b => b == 0
    isCapture := fun _ _ => true
    isPromo := fun _ => false
    fromSquare := fun _ => 0
    toSquare := fun _ => 0
    pieceAt := fun _ _ => none
    evaluate := fun _ => 0
    key := fun b => b
    turn := fun _ => true }

/-- Witness for C10 on the capture-chain engine, starting from a board
with 2 pieces and fuel 3. -/
theorem C10_quiescence_terminates_witness :
    (quiescence captureChainEngine 3 (XInt.fin 0) (XInt.fin 1)
      { botInit with cur := 2 }).isSome = true := by
  refine C10_quiescence_terminates captureChainEngine
    (fun b => b) (fun _ => 0) ?_ ?_ 3 (XInt.fin 0) (XInt.fin 1)
    { botInit with cur := 2 } (by decide)
  · intro b m hm _
    cases b with
    | zero => cases hm
    | succ n =>
        have hmn : m = n := by
          simpa [captureChainEngine] using hm
        constructor
        · show m < n + 1
          omega
        · exact Nat.le_refl 0
  · intro b m _ hp _
    cases hp

/-- A chess piece as python-chess exposes it: kind plus colour
(`True` = white). -/
structure CPiece where
  pt : PieceT
  color : Bool
deriving DecidableEq, Repr

/-- A board as `evaluate` consumes it: the `piece_map()`, a partial map
from squares 0..63 to pieces (square = rank*8 + file). -/
def CBoard : Type := Nat → Option CPiece

/-- `piece and piece.piece_type == 1 and piece.color == c`. -/
def pawnAt (b : CBoard) (c : Bool) (sq : Nat) : Bool :=
  match b sq with
  | some p => decide (p.pt = PieceT.pawn ∧ p.color = c)
  | none => false

/-- `_is_passed_pawn`: for white, scan the ranks above on the own and
adjacent files for black pawns; for black, the ranks below (descending,
as the source iterates) for white pawns. -/
def isPassedPawn (b : CBoard) (sq : Nat) (isWhite : Bool) : Bool :=
  let fi : Int := (sq % 8 : Nat)
  let ri := sq / 8
  if isWhite then
    (List.range' (ri + 1) (8 - (ri + 1))).all fun rank =>
      ([fi - 1, fi, fi + 1] : List Int).all fun file =>
        if 0 ≤ file ∧ file < 8 then
          !(pawnAt b false (rank * 8 + file.toNat))
        else true
  else
    ((List.range ri).reverse).all fun rank =>
      ([fi - 1, fi, fi + 1] : List Int).all fun file =>
        if 0 ≤ file ∧ file < 8 then
          !(pawnAt b true (rank * 8 + file.toNat))
        else true

/-- `_is_isolated_pawn`: no same-coloured pawn on either adjacent file. -/
def isIsolatedPawn (b : CBoard) (sq : Nat) (isWhite : Bool) : Bool :=
  let fi : Int := (sq % 8 : Nat)
  ([fi - 1, fi + 1] : List Int).all fun file =>
    if 0 ≤ file ∧ file < 8 then
      (List.range 8).all fun rank =>
        !(pawnAt b isWhite (rank * 8 + file.toNat))
    else true

/-- The `king_pawn_shield_scores` table. -/
def kingShieldScores : List Int := [4, 7, 4, 3, 6, 3]

/-- `_calculate_king_shield`: sum the per-file weight over own pawns in
the 2-to-3 file window, on the king's rank and the one ahead of it. -/
def calculateKingShield (b : CBoard) (sq : Nat) (isWhite : Bool) : Int :=
  let fi := sq % 8
  let ri := sq / 8
  if isWhite then
    ((List.range' (fi - 1) (min 8 (fi + 2) - (fi - 1))).map fun file =>
      ((List.range' ri (min 8 (ri + 2) - ri)).map fun rank =>
        if pawnAt b true (rank * 8 + file) then
          kingShieldScores.getD (min 5 file) 0
        else 0).sum).sum
  else
    ((List.range' (fi - 1) (min 8 (fi + 2) - (fi - 1))).map fun file =>
      ((List.range' (ri - 1) (ri + 1 - (ri - 1))).map fun rank =>
        if pawnAt b false (rank * 8 + file) then
          kingShieldScores.getD (min 5 file) 0
        else 0).sum).sum

/-- The `passed_pawn_bonuses` table. -/
def passedPawnBonuses : List Int := [0, 120, 80, 50, 30, 15, 15, 120]

/-- The `isolated_pawn_penalty` table (indexed by the per-side count). -/
def isolatedPawnPenalty : List Int := [0, -10, -25, -50, -75, -75, -75, -75, -75]

/-- The signed contribution of one square to `evaluate`: the `value`
computed for the piece there (material, plus passed-pawn bonus for
pawns, plus shield for kings), added for white and subtracted for
black.  Empty squares contribute 0, so summing over all 64 squares is
the dictionary iteration of the source. -/
def squareValue (b : CBoard) (sq : Nat) : Int :=
  match b sq with
  | none => 0
  | some p =>
      let value : Int :=
        match p.pt with
        | .pawn =>
            1 + (if isPassedPawn b sq p.color then
                   (if p.color then passedPawnBonuses.getD (sq / 8) 0
                    else passedPawnBonuses.getD (7 - sq / 8) 0)
                 else 0)
        | .knight => 3
        | .bishop => 3
        | .rook => 5
        | .queen => 10
        | .king => calculateKingShield b sq p.color
      if p.color then value else -value

/-- The number of isolated pawns of one colour. -/
def isolatedCount (b : CBoard) (c : Bool) : Nat :=
  ((List.range 64).filter fun sq =>
    pawnAt b c sq && isIsolatedPawn b sq c).length

/-- `evaluate`: the summed signed piece values plus the isolated-pawn
penalty terms (`+ penalty[white_count] - penalty[black_count]`; the
penalty table is read totally with default 0, which coincides with the
source for any position with at most 8 pawns per side). -/
def evaluate (b : CBoard) : Int :=
  ((List.range 64).map (squareValue b)).sum
    + isolatedPawnPenalty.getD (isolatedCount b true) 0
    - isolatedPawnPenalty.getD (isolatedCount b false) 0

/-- The square with the same file on the rank-mirrored board. -/
def mirrorSq (sq : Nat) : Nat := (7 - sq / 8) * 8 + sq % 8

/-- The colour-swapped, rank-mirrored board of claim C8. -/
def flipBoard (b : CBoard) : CBoard := fun sq =>
  match b (mirrorSq sq) with
  | some p => some ⟨p.pt, !p.color⟩
  | none => none

theorem mirrorSq_lt {sq : Nat} (h : sq < 64) : mirrorSq sq < 64 := by
  unfold mirrorSq
  omega

theorem mirrorSq_mod (sq : Nat) : mirrorSq sq % 8 = sq % 8 := by
  unfold mirrorSq
  omega

theorem mirrorSq_div {sq : Nat} (_h : sq < 64) : mirrorSq sq / 8 = 7 - sq / 8 := by
  unfold mirrorSq
  omega

theorem mirrorSq_mirrorSq {sq : Nat} (h : sq < 64) :
    mirrorSq (mirrorSq sq) = sq := by
  unfold mirrorSq
  omega

theorem mirrorSq_encode {r f : Nat} (hr : r ≤ 7) (hf : f < 8) :
    mirrorSq (r * 8 + f) = (7 - r) * 8 + f := by
  unfold mirrorSq
  omega

theorem pawnAt_flip (b : CBoard) (c : Bool) (sq : Nat) :
    pawnAt (flipBoard b) c sq = pawnAt b (!c) (mirrorSq sq) := by
  unfold pawnAt flipBoard
  cases b (mirrorSq sq) with
  | none => rfl
  | some p =>
      cases hc : p.color <;> cases c <;> simp [hc]

theorem all_congr_mem {A : Type} {l : List A} {p q : A → Bool}
    (h : ∀ x ∈ l, p x = q x) : l.all p = l.all q := by
  induction l with
  | nil => rfl
  | cons x xs ih =>
      simp only [List.all_cons, h x (List.mem_cons_self x xs),
        ih (fun y hy => h y (List.mem_cons_of_mem x hy))]

theorem all_range64_mirror (p : Nat → Bool) :
    (List.range 64).all (fun t => p (mirrorSq t)) = (List.range 64).all p := by
  rw [Bool.eq_iff_iff]
  simp only [List.all_eq_true, List.mem_range]
  constructor
  · intro h t ht
    have h2 := h (mirrorSq t) (mirrorSq_lt ht)
    rwa [mirrorSq_mirrorSq ht] at h2
  · intro h t ht
    exact h (mirrorSq t) (mirrorSq_lt ht)

theorem mirror_perm : ((List.range 64).map mirrorSq).Perm (List.range 64) := by
  decide

theorem sum_map_neg {A : Type} (l : List A) (f : A → Int) :
    (l.map fun x => -f x).sum = -(l.map f).sum := by
  induction l with
  | nil => simp
  | cons x xs ih =>
      simp only [List.map_cons, List.sum_cons, ih]
      ring

/-- The white passed-pawn scan, recast as one guarded pass over all 64
squares: no black pawn strictly above on the own or an adjacent file. -/
theorem isPassedPawn_white_char (b : CBoard) (sq : Nat) (hsq : sq < 64) :
    isPassedPawn b sq true
      = (List.range 64).all (fun t =>
          if sq / 8 < t / 8 ∧
              (t % 8 + 1 = sq % 8 ∨ t % 8 = sq % 8 ∨ t % 8 = sq % 8 + 1)
          then !(pawnAt b false t) else true) := by
  simp only [isPassedPawn]
  rw [if_pos trivial, Bool.eq_iff_iff]
  simp only [List.all_eq_true, List.mem_range'_1, List.mem_range,
    List.mem_cons, List.not_mem_nil, or_false]
  constructor
  · intro h t ht
    by_cases hc : sq / 8 < t / 8 ∧
        (t % 8 + 1 = sq % 8 ∨ t % 8 = sq % 8 ∨ t % 8 = sq % 8 + 1)
    · rw [if_pos hc]
      obtain ⟨hrank, hfile⟩ := hc
      have hmem : ((t % 8 : Nat) : Int) = ((sq % 8 : Nat) : Int) - 1 ∨
          ((t % 8 : Nat) : Int) = ((sq % 8 : Nat) : Int) ∨
          ((t % 8 : Nat) : Int) = ((sq % 8 : Nat) : Int) + 1 := by
        rcases hfile with hf | hf | hf
        · exact Or.inl (by omega)
        · exact Or.inr (Or.inl (by omega))
        · exact Or.inr (Or.inr (by omega))
      have h2 := h (t / 8) ⟨by omega, by omega⟩ ((t % 8 : Nat) : Int) hmem
      rw [if_pos ⟨by omega, by omega⟩] at h2
      have he : t / 8 * 8 + ((t % 8 : Nat) : Int).toNat = t := by omega
      rwa [he] at h2
    · rw [if_neg hc]
  · intro h ρ hρ φ hφ
    by_cases hg : 0 ≤ φ ∧ φ < 8
    · rw [if_pos hg]
      have h2 := h (ρ * 8 + φ.toNat) (by omega)
      have hcond : sq / 8 < (ρ * 8 + φ.toNat) / 8 ∧
          ((ρ * 8 + φ.toNat) % 8 + 1 = sq % 8 ∨
           (ρ * 8 + φ.toNat) % 8 = sq % 8 ∨
           (ρ * 8 + φ.toNat) % 8 = sq % 8 + 1) := by
        constructor
        · omega
        · rcases hφ with hf | hf | hf
          · exact Or.inl (by omega)
          · exact Or.inr (Or.inl (by omega))
          · exact Or.inr (Or.inr (by omega))
      rwa [if_pos hcond] at h2
    · rw [if_neg hg]

/-- The black passed-pawn scan over all 64 squares: no white pawn
strictly below on the own or an adjacent file. -/
theorem isPassedPawn_black_char (b : CBoard) (sq : Nat) (hsq : sq < 64) :
    isPassedPawn b sq false
      = (List.range 64).all (fun t =>
          if t / 8 < sq / 8 ∧
              (t % 8 + 1 = sq % 8 ∨ t % 8 = sq % 8 ∨ t % 8 = sq % 8 + 1)
          then !(pawnAt b true t) else true) := by
  simp only [isPassedPawn]
  rw [if_neg (by simp), Bool.eq_iff_iff]
  simp only [List.all_eq_true, List.mem_reverse, List.mem_range,
    List.mem_cons, List.not_mem_nil, or_false]
  constructor
  · intro h t ht
    by_cases hc : t / 8 < sq / 8 ∧
        (t % 8 + 1 = sq % 8 ∨ t % 8 = sq % 8 ∨ t % 8 = sq % 8 + 1)
    · rw [if_pos hc]
      obtain ⟨hrank, hfile⟩ := hc
      have hmem : ((t % 8 : Nat) : Int) = ((sq % 8 : Nat) : Int) - 1 ∨
          ((t % 8 : Nat) : Int) = ((sq % 8 : Nat) : Int) ∨
          ((t % 8 : Nat) : Int) = ((sq % 8 : Nat) : Int) + 1 := by
        rcases hfile with hf | hf | hf
        · exact Or.inl (by omega)
        · exact Or.inr (Or.inl (by omega))
        · exact Or.inr (Or.inr (by omega))
      have h2 := h (t / 8) (by omega) ((t % 8 : Nat) : Int) hmem
      rw [if_pos ⟨by omega, by omega⟩] at h2
      have he : t / 8 * 8 + ((t % 8 : Nat) : Int).toNat = t := by omega
      rwa [he] at h2
    · rw [if_neg hc]
  · intro h ρ hρ φ hφ
    by_cases hg : 0 ≤ φ ∧ φ < 8
    · rw [if_pos hg]
      have h2 := h (ρ * 8 + φ.toNat) (by omega)
      have hcond : (ρ * 8 + φ.toNat) / 8 < sq / 8 ∧
          ((ρ * 8 + φ.toNat) % 8 + 1 = sq % 8 ∨
           (ρ * 8 + φ.toNat) % 8 = sq % 8 ∨
           (ρ * 8 + φ.toNat) % 8 = sq % 8 + 1) := by
        constructor
        · omega
        · rcases hφ with hf | hf | hf
          · exact Or.inl (by omega)
          · exact Or.inr (Or.inl (by omega))
          · exact Or.inr (Or.inr (by omega))
      rwa [if_pos hcond] at h2
    · rw [if_neg hg]

/-- The isolated-pawn scan over all 64 squares: no same-coloured pawn on
an adjacent file. -/
theorem isIsolatedPawn_char (b : CBoard) (sq : Nat) (_hsq : sq < 64)
    (c : Bool) :
    isIsolatedPawn b sq c
      = (List.range 64).all (fun t =>
          if t % 8 + 1 = sq % 8 ∨ t % 8 = sq % 8 + 1
          then !(pawnAt b c t) else true) := by
  simp only [isIsolatedPawn]
  rw [Bool.eq_iff_iff]
  simp only [List.all_eq_true, List.mem_range,
    List.mem_cons, List.not_mem_nil, or_false]
  constructor
  · intro h t ht
    by_cases hc : t % 8 + 1 = sq % 8 ∨ t % 8 = sq % 8 + 1
    · rw [if_pos hc]
      have hmem : ((t % 8 : Nat) : Int) = ((sq % 8 : Nat) : Int) - 1 ∨
          ((t % 8 : Nat) : Int) = ((sq % 8 : Nat) : Int) + 1 := by
        rcases hc with hf | hf
        · exact Or.inl (by omega)
        · exact Or.inr (by omega)
      have h2 := h ((t % 8 : Nat) : Int) hmem
      rw [if_pos ⟨by omega, by omega⟩, List.all_eq_true] at h2
      have h3 := h2 (t / 8) (List.mem_range.mpr (by omega))
      have he : t / 8 * 8 + ((t % 8 : Nat) : Int).toNat = t := by omega
      rwa [he] at h3
    · rw [if_neg hc]
  · intro h φ hφ
    by_cases hg : 0 ≤ φ ∧ φ < 8
    · rw [if_pos hg, List.all_eq_true]
      intro ρ hρm
      have hρ := List.mem_range.mp hρm
      have h2 := h (ρ * 8 + φ.toNat) (by omega)
      have hcond : (ρ * 8 + φ.toNat) % 8 + 1 = sq % 8 ∨
          (ρ * 8 + φ.toNat) % 8 = sq % 8 + 1 := by
        rcases hφ with hf | hf
        · exact Or.inl (by omega)
        · exact Or.inr (by omega)
      rwa [if_pos hcond] at h2
    · rw [if_neg hg]

theorem isPassedPawn_flip (b : CBoard) (sq : Nat) (hsq : sq < 64) (c : Bool) :
    isPassedPawn (flipBoard b) sq c = isPassedPawn b (mirrorSq sq) (!c) := by
  cases c with
  | false =>
      show isPassedPawn (flipBoard b) sq false
        = isPassedPawn b (mirrorSq sq) true
      rw [isPassedPawn_black_char (flipBoard b) sq hsq,
        isPassedPawn_white_char b (mirrorSq sq) (mirrorSq_lt hsq),
        ← all_range64_mirror]
      apply all_congr_mem
      intro t htm
      have ht := List.mem_range.mp htm
      rw [pawnAt_flip, mirrorSq_mirrorSq ht]
      apply if_congr ?_ rfl rfl
      have e1 := mirrorSq_div ht
      have e2 := mirrorSq_div hsq
      have e3 := mirrorSq_mod t
      have e4 := mirrorSq_mod sq
      rw [e1, e2, e3, e4]
      omega
  | true =>
      show isPassedPawn (flipBoard b) sq true
        = isPassedPawn b (mirrorSq sq) false
      rw [isPassedPawn_white_char (flipBoard b) sq hsq,
        isPassedPawn_black_char b (mirrorSq sq) (mirrorSq_lt hsq),
        ← all_range64_mirror]
      apply all_congr_mem
      intro t htm
      have ht := List.mem_range.mp htm
      rw [pawnAt_flip, mirrorSq_mirrorSq ht]
      apply if_congr ?_ rfl rfl
      have e1 := mirrorSq_div ht
      have e2 := mirrorSq_div hsq
      have e3 := mirrorSq_mod t
      have e4 := mirrorSq_mod sq
      rw [e1, e2, e3, e4]
      omega

theorem isIsolatedPawn_flip (b : CBoard) (sq : Nat) (hsq : sq < 64)
    (c : Bool) :
    isIsolatedPawn (flipBoard b) sq c
      = isIsolatedPawn b (mirrorSq sq) (!c) := by
  rw [isIsolatedPawn_char (flipBoard b) sq hsq c,
    isIsolatedPawn_char b (mirrorSq sq) (mirrorSq_lt hsq) (!c),
    ← all_range64_mirror]
  apply all_congr_mem
  intro t htm
  have ht := List.mem_range.mp htm
  rw [pawnAt_flip, mirrorSq_mirrorSq ht]
  apply if_congr ?_ rfl rfl
  have e3 := mirrorSq_mod t
  have e4 := mirrorSq_mod sq
  rw [e3, e4]

theorem isolatedCount_flip (b : CBoard) (c : Bool) :
    isolatedCount (flipBoard b) c = isolatedCount b (!c) := by
  unfold isolatedCount
  have hpt : ∀ t ∈ List.range 64,
      (pawnAt (flipBoard b) c t && isIsolatedPawn (flipBoard b) t c)
        = ((fun u => pawnAt b (!c) u && isIsolatedPawn b u (!c)) ∘ mirrorSq) t := by
    intro t htm
    have ht := List.mem_range.mp htm
    show _ = (pawnAt b (!c) (mirrorSq t) && isIsolatedPawn b (mirrorSq t) (!c))
    rw [pawnAt_flip, isIsolatedPawn_flip b t ht c]
  rw [List.filter_congr hpt, ← List.countP_eq_length_filter,
    ← List.countP_map, List.Perm.countP_eq _ mirror_perm,
    List.countP_eq_length_filter]

/-- The white shield rank window (own rank and the one above), traversed
through the rank mirror, is the black shield rank window of the mirrored
king. -/
theorem sum_ranks_flipW (ri : Nat) (hri : ri ≤ 7) (g : Nat → Int) :
    ((List.range' ri (min 8 (ri + 2) - ri)).map fun rank => g (7 - rank)).sum
      = ((List.range' (7 - ri - 1) (7 - ri + 1 - (7 - ri - 1))).map g).sum := by
  interval_cases ri <;> (simp [List.range']; try ring)

/-- The black shield rank window (own rank and the one below), traversed
through the rank mirror, is the white shield rank window of the mirrored
king. -/
theorem sum_ranks_flipB (ri : Nat) (hri : ri ≤ 7) (g : Nat → Int) :
    ((List.range' (ri - 1) (ri + 1 - (ri - 1))).map fun rank => g (7 - rank)).sum
      = ((List.range' (7 - ri) (min 8 (7 - ri + 2) - (7 - ri))).map g).sum := by
  interval_cases ri <;> (simp [List.range']; try ring)

theorem calculateKingShield_flip (b : CBoard) (sq : Nat) (hsq : sq < 64)
    (c : Bool) :
    calculateKingShield (flipBoard b) sq c
      = calculateKingShield b (mirrorSq sq) (!c) := by
  have hfi : mirrorSq sq % 8 = sq % 8 := mirrorSq_mod sq
  have hri : mirrorSq sq / 8 = 7 - sq / 8 := mirrorSq_div hsq
  have hr7 : sq / 8 ≤ 7 := by omega
  cases c with
  | false =>
      show calculateKingShield (flipBoard b) sq false
        = calculateKingShield b (mirrorSq sq) true
      simp only [calculateKingShield]
      rw [if_neg (by simp), if_pos trivial, hfi, hri]
      congr 1
      apply List.map_congr_left
      intro file hfm
      have hfile : file < 8 := by
        have := List.mem_range'_1.mp hfm
        omega
      have hmap : (List.range' (sq / 8 - 1) (sq / 8 + 1 - (sq / 8 - 1))).map
          (fun rank => if pawnAt (flipBoard b) false (rank * 8 + file)
            then kingShieldScores.getD (min 5 file) 0 else 0)
          = (List.range' (sq / 8 - 1) (sq / 8 + 1 - (sq / 8 - 1))).map
            (fun rank => (fun r => if pawnAt b true (r * 8 + file)
              then kingShieldScores.getD (min 5 file) 0 else 0) (7 - rank)) := by
        apply List.map_congr_left
        intro rank hrm
        have hrank : rank ≤ 7 := by
          have := List.mem_range'_1.mp hrm
          omega
        show (if pawnAt (flipBoard b) false (rank * 8 + file)
            then kingShieldScores.getD (min 5 file) 0 else 0) = _
        rw [pawnAt_flip, mirrorSq_encode hrank hfile]
        rfl
      rw [hmap, sum_ranks_flipB (sq / 8) hr7
        (fun r => if pawnAt b true (r * 8 + file)
          then kingShieldScores.getD (min 5 file) 0 else 0)]
  | true =>
      show calculateKingShield (flipBoard b) sq true
        = calculateKingShield b (mirrorSq sq) false
      simp only [calculateKingShield]
      rw [if_pos trivial, if_neg (by simp), hfi, hri]
      congr 1
      apply List.map_congr_left
      intro file hfm
      have hfile : file < 8 := by
        have := List.mem_range'_1.mp hfm
        omega
      have hmap : (List.range' (sq / 8) (min 8 (sq / 8 + 2) - sq / 8)).map
          (fun rank => if pawnAt (flipBoard b) true (rank * 8 + file)
            then kingShieldScores.getD (min 5 file) 0 else 0)
          = (List.range' (sq / 8) (min 8 (sq / 8 + 2) - sq / 8)).map
            (fun rank => (fun r => if pawnAt b false (r * 8 + file)
              then kingShieldScores.getD (min 5 file) 0 else 0) (7 - rank)) := by
        apply List.map_congr_left
        intro rank hrm
        have hrank : rank ≤ 7 := by
          have := List.mem_range'_1.mp hrm
          omega
        show (if pawnAt (flipBoard b) true (rank * 8 + file)
            then kingShieldScores.getD (min 5 file) 0 else 0) = _
        rw [pawnAt_flip, mirrorSq_encode hrank hfile]
        rfl
      rw [hmap, sum_ranks_flipW (sq / 8) hr7
        (fun r => if pawnAt b false (r * 8 + file)
          then kingShieldScores.getD (min 5 file) 0 else 0)]

theorem squareValue_flip (b : CBoard) (sq : Nat) (hsq : sq < 64) :
    squareValue (flipBoard b) sq = -squareValue b (mirrorSq sq) := by
  have hdd : mirrorSq sq / 8 = 7 - sq / 8 := mirrorSq_div hsq
  cases hb : b (mirrorSq sq) with
  | none =>
      simp only [squareValue, flipBoard, hb]
      simp
  | some p =>
      obtain ⟨pt, pc⟩ := p
      cases pt with
      | pawn =>
          cases pc with
          | false =>
              have hfb : flipBoard b sq = some ⟨PieceT.pawn, true⟩ := by
                simp [flipBoard, hb]
              have hpass2 : isPassedPawn (flipBoard b) sq true
                  = isPassedPawn b (mirrorSq sq) false := by
                simpa using isPassedPawn_flip b sq hsq true
              have h7 : 7 - (7 - sq / 8) = sq / 8 := by omega
              simp only [squareValue, hfb, hb, hpass2, hdd, h7]
              simp
              try ring
          | true =>
              have hfb : flipBoard b sq = some ⟨PieceT.pawn, false⟩ := by
                simp [flipBoard, hb]
              have hpass2 : isPassedPawn (flipBoard b) sq false
                  = isPassedPawn b (mirrorSq sq) true := by
                simpa using isPassedPawn_flip b sq hsq false
              have h7 : 7 - (7 - sq / 8) = sq / 8 := by omega
              simp only [squareValue, hfb, hb, hpass2, hdd, h7]
              simp
              try ring
      | knight =>
          cases pc <;> simp [squareValue, flipBoard, hb]
      | bishop =>
          cases pc <;> simp [squareValue, flipBoard, hb]
      | rook =>
          cases pc <;> simp [squareValue, flipBoard, hb]
      | queen =>
          cases pc <;> simp [squareValue, flipBoard, hb]
      | king =>
          cases pc with
          | false =>
              have hfb : flipBoard b sq = some ⟨PieceT.king, true⟩ := by
                simp [flipBoard, hb]
              have hs2 : calculateKingShield (flipBoard b) sq true
                  = calculateKingShield b (mirrorSq sq) false := by
                simpa using calculateKingShield_flip b sq hsq true
              simp only [squareValue, hfb, hb, hs2]
              simp
              try ring
          | true =>
              have hfb : flipBoard b sq = some ⟨PieceT.king, false⟩ := by
                simp [flipBoard, hb]
              have hs2 : calculateKingShield (flipBoard b) sq false
                  = calculateKingShield b (mirrorSq sq) true := by
                simpa using calculateKingShield_flip b sq hsq false
              simp only [squareValue, hfb, hb, hs2]
              simp
              try ring

/-- C8: `evaluate` is antisymmetric under the colour-flip of the
rank-mirrored board: evaluating the position with colours swapped and
ranks mirrored yields exactly the negation of the original score (the
material, passed-pawn, isolated-pawn and king-shield terms all invert
sign). -/
theorem C8_evaluate_antisymmetric (b : CBoard) :
    evaluate (flipBoard b) = -evaluate b := by
  unfold evaluate
  have h1 : (List.range 64).map (squareValue (flipBoard b))
      = (List.range 64).map (fun t => -squareValue b (mirrorSq t)) := by
    apply List.map_congr_left
    intro t htm
    exact squareValue_flip b t (List.mem_range.mp htm)
  have h2 : (List.range 64).map (fun t => squareValue b (mirrorSq t))
      = ((List.range 64).map mirrorSq).map (squareValue b) := by
    rw [List.map_map]
    rfl
  have hsum : ((List.range 64).map (squareValue (flipBoard b))).sum
      = -((List.range 64).map (squareValue b)).sum := by
    rw [h1, sum_map_neg (List.range 64) (fun t => squareValue b (mirrorSq t))]
    congr 1
    rw [h2]
    exact List.Perm.sum_eq (mirror_perm.map (squareValue b))
  rw [hsum, isolatedCount_flip, isolatedCount_flip]
  simp only [Bool.not_true, Bool.not_false]
  ring
